import Mathlib

/-!
Verification of the TxFlow message DAG (core/txflow/src/dag/mod.rs) and the
nibble-addressable byte view (core/storage/src/nibble_slice.rs).

Machine integers (u8, u64, usize) are modelled as Nat; byte values carry an
explicit bound of 256 in the theorems where it matters.  Rust HashSet and
HashMap containers are modelled as lists with set/map semantics (insertion
only when absent, lookup by first match).
-/

/-! ## Nibble view: core/storage/src/nibble_slice.rs -/

/-- The NibbleSlice struct: a primary byte span with a nibble offset and an
optional encode-suffix span.  Bytes are Nat-modelled u8 values. -/
structure NibbleSlice where
  data : List Nat
  offset : Nat
  data_encode_suffix : List Nat
  offset_encode_suffix : Nat
deriving DecidableEq

/-- NibbleSlice::new_offset: view over the given bytes starting at the given
nibble offset, with an empty encode suffix. -/
def NibbleSlice.new_offset (data : List Nat) (offset : Nat) : NibbleSlice :=
  { data := data, offset := offset, data_encode_suffix := [], offset_encode_suffix := 0 }

/-- NibbleSlice::new: view with nibble offset 0. -/
def NibbleSlice.new (data : List Nat) : NibbleSlice :=
  NibbleSlice.new_offset data 0

/-- NibbleSlice::len: length in nibbles. -/
def NibbleSlice.len (s : NibbleSlice) : Nat :=
  (s.data.length + s.data_encode_suffix.length) * 2 - s.offset - s.offset_encode_suffix

/-- NibbleSlice::at: the i-th nibble.  The source indexes u8 slices and uses
the bit operations x >> 4 and x & 15, rendered here as division and remainder
by 16; out-of-bounds byte access (a panic in Rust, and a documented caller
contract violation) is totalised with default byte 0. -/
def NibbleSlice.atN (s : NibbleSlice) (i : Nat) : Nat :=
  let l := s.data.length * 2 - s.offset
  if i < l then
    if (s.offset + i) % 2 = 1 then s.data.getD ((s.offset + i) / 2) 0 % 16
    else s.data.getD ((s.offset + i) / 2) 0 / 16
  else
    let j := i - l
    if (s.offset_encode_suffix + j) % 2 = 1 then
      s.data_encode_suffix.getD ((s.offset_encode_suffix + j) / 2) 0 % 16
    else s.data_encode_suffix.getD ((s.offset_encode_suffix + j) / 2) 0 / 16

/-- NibbleSlice::mid: the view offset by i further nibbles; the encode suffix
is dropped. -/
def NibbleSlice.mid (s : NibbleSlice) (i : Nat) : NibbleSlice :=
  { data := s.data, offset := s.offset + i, data_encode_suffix := [], offset_encode_suffix := 0 }

/-- NibbleSlice::common_prefix: the index of the first differing nibble below
min(len, len), or that minimum if no nibble differs (the source loop with its
early return). -/
def NibbleSlice.common_prefix_count (s t : NibbleSlice) : Nat :=
  let m := min s.len t.len
  ((List.range m).find? (fun i => s.atN i != t.atN i)).getD m

/-- NibbleSlice::starts_with. -/
def NibbleSlice.starts_with (s t : NibbleSlice) : Bool :=
  NibbleSlice.common_prefix_count s t == t.len

/-- The PartialEq instance for NibbleSlice: equal length and starts_with. -/
def NibbleSlice.beqN (s t : NibbleSlice) : Bool :=
  s.len == t.len && s.starts_with t

/-- The PartialOrd instance for NibbleSlice: the ordering at the first
differing nibble below min(len, len), otherwise the ordering of the lengths. -/
def NibbleSlice.cmpNibbles (s t : NibbleSlice) : Option Ordering :=
  let m := min s.len t.len
  match (List.range m).find? (fun i => s.atN i != t.atN i) with
  | some i => some (compare (s.atN i) (t.atN i))
  | none => some (compare s.len t.len)

/-- NibbleSlice::encoded: Hex-Prefix encoding.  The header byte carries the
leaf flag (0x20) and the parity flag (0x10, with the first nibble in its low
half when the length is odd); the while loop packing nibble pairs is rendered
as a map over the pair count. -/
def NibbleSlice.encoded (s : NibbleSlice) (is_leaf : Bool) : List Nat :=
  let l := s.len
  let i := l % 2
  ((if i = 1 then 16 + s.atN 0 else 0) + (if is_leaf then 32 else 0)) ::
    (List.range (l / 2)).map (fun k => s.atN (i + 2 * k) * 16 + s.atN (i + 2 * k + 1))

/-- NibbleSlice::from_encoded: the bit tests data[0] & 16 == 16 and
data[0] & 32 == 32 of the source are rendered as the corresponding binary
digit extractions. -/
def NibbleSlice.from_encoded (data : List Nat) : NibbleSlice × Bool :=
  (NibbleSlice.new_offset data (if data.getD 0 0 / 16 % 2 = 1 then 1 else 2),
   data.getD 0 0 / 32 % 2 == 1)

/-! Helper lemmas for the nibble view. -/

theorem NibbleSlice.atN_lt_16 (s : NibbleSlice) (i : Nat)
    (hb : ∀ x ∈ s.data, x < 256) (hsuf : s.data_encode_suffix = []) :
    s.atN i < 16 := by
  unfold NibbleSlice.atN
  have hbyte : ∀ k, s.data.getD k 0 < 256 := by
    intro k
    by_cases hk : k < s.data.length
    · rw [s.data.getD_eq_getElem 0 hk]
      exact hb _ (s.data.getElem_mem hk)
    · rw [s.data.getD_eq_default 0 (Nat.le_of_not_lt hk)]; omega
  have hbyte2 : ∀ k, s.data_encode_suffix.getD k 0 < 256 := by
    intro k; rw [hsuf]; simp
  simp only []
  split
  · split
    · exact Nat.lt_of_lt_of_le (Nat.mod_lt _ (by norm_num)) (by norm_num)
    · have := hbyte ((s.offset + i) / 2); omega
  · split
    · exact Nat.lt_of_lt_of_le (Nat.mod_lt _ (by norm_num)) (by norm_num)
    · have := hbyte2 ((s.offset_encode_suffix + (i - (s.data.length * 2 - s.offset))) / 2); omega

set_option maxRecDepth 4096 in
/-- Bit-operation bridge for u8 values: on bytes below 256 the source bit
operations x >> 4 & 15 and x & 15 agree with division and remainder by 16. -/
theorem byte_bitop_spec : ∀ x : Nat, x < 256 → (x >>> 4 &&& 15 = x / 16 ∧ x &&& 15 = x % 16) := by
  decide

theorem getD_lt_256 (b : List Nat) (hb : ∀ x ∈ b, x < 256) (k : Nat) : b.getD k 0 < 256 := by
  by_cases hk : k < b.length
  · rw [b.getD_eq_getElem 0 hk]; exact hb _ (b.getElem_mem hk)
  · rw [b.getD_eq_default 0 (Nat.le_of_not_lt hk)]; omega

/-- C9: for every byte slice b and nibble offset o with o ≤ 2|b|, the view
new_offset(b, o) has length 2|b| − o nibbles, and at(i) returns the high
half-byte (b[(o+i)/2] >> 4) & 0xF when (o+i) is even and the low half-byte
b[(o+i)/2] & 0xF when (o+i) is odd. -/
theorem nibble_new_offset_at_spec (b : List Nat) (o : Nat)
    (hb : ∀ x ∈ b, x < 256) (ho : o ≤ 2 * b.length) :
    (NibbleSlice.new_offset b o).len = 2 * b.length - o ∧
    ∀ i, i < 2 * b.length - o →
      (NibbleSlice.new_offset b o).atN i =
        if (o + i) % 2 = 0 then b.getD ((o + i) / 2) 0 >>> 4 &&& 15
        else b.getD ((o + i) / 2) 0 &&& 15 := by
  constructor
  · simp only [NibbleSlice.new_offset, NibbleSlice.len, List.length_nil]
    omega
  · intro i hi
    have hbyte : b.getD ((o + i) / 2) 0 < 256 := getD_lt_256 b hb _
    have h1 := (byte_bitop_spec _ hbyte).1
    have h2 := (byte_bitop_spec _ hbyte).2
    simp only [NibbleSlice.atN, NibbleSlice.new_offset]
    have hil : i < b.length * 2 - o := by omega
    rw [if_pos hil]
    rcases Nat.mod_two_eq_zero_or_one (o + i) with hpar | hpar
    · rw [if_neg (by omega), if_pos hpar, h1]
    · rw [if_pos hpar, if_neg (by omega), h2]

/-- C9 witness: the theorem applied to bytes [1, 35] at offset 1. -/
theorem nibble_new_offset_at_spec_witness :
    (∀ x ∈ ([1, 35] : List Nat), x < 256) ∧ 1 ≤ 2 * ([1, 35] : List Nat).length ∧
    ((NibbleSlice.new_offset [1, 35] 1).len = 2 * ([1, 35] : List Nat).length - 1 ∧
     ∀ i, i < 2 * ([1, 35] : List Nat).length - 1 →
       (NibbleSlice.new_offset [1, 35] 1).atN i =
         if (1 + i) % 2 = 0 then ([1, 35] : List Nat).getD ((1 + i) / 2) 0 >>> 4 &&& 15
         else ([1, 35] : List Nat).getD ((1 + i) / 2) 0 &&& 15) :=
  ⟨by decide, by decide, nibble_new_offset_at_spec [1, 35] 1 (by decide) (by decide)⟩

theorem range_map_getD (f : Nat → Nat) (n j : Nat) (h : j < n) :
    ((List.range n).map f).getD j 0 = f j := by
  have hlen : j < ((List.range n).map f).length := by
    simpa using h
  rw [List.getD_eq_getElem _ _ hlen]
  simp

theorem encoded_length (s : NibbleSlice) (leaf : Bool) :
    (s.encoded leaf).length = 1 + s.len / 2 := by
  simp [NibbleSlice.encoded]
  omega

theorem encoded_getD_zero (s : NibbleSlice) (leaf : Bool) :
    (s.encoded leaf).getD 0 0 =
      (if s.len % 2 = 1 then 16 + s.atN 0 else 0) + (if leaf then 32 else 0) := by
  simp [NibbleSlice.encoded]

theorem encoded_getD_succ (s : NibbleSlice) (leaf : Bool) (j : Nat) (hj : j < s.len / 2) :
    (s.encoded leaf).getD (j + 1) 0 =
      s.atN (s.len % 2 + 2 * j) * 16 + s.atN (s.len % 2 + 2 * j + 1) := by
  simp only [NibbleSlice.encoded, List.getD_cons_succ]
  exact range_map_getD _ _ _ hj


theorem encoded_decoded_len (s : NibbleSlice) (leaf : Bool) :
    (NibbleSlice.new_offset (s.encoded leaf)
      (if s.len % 2 = 1 then 1 else 2)).len = s.len := by
  have hlen := encoded_length s leaf
  have hbody : (NibbleSlice.new_offset (s.encoded leaf) (if s.len % 2 = 1 then 1 else 2)).len
      = ((s.encoded leaf).length + 0) * 2 - (if s.len % 2 = 1 then 1 else 2) - 0 := rfl
  rw [hbody, hlen]
  rcases Nat.mod_two_eq_zero_or_one s.len with h | h
  · rw [if_neg (by omega)]; omega
  · rw [if_pos h]; omega

theorem encoded_decoded_atN (s : NibbleSlice) (leaf : Bool)
    (hb : ∀ x ∈ s.data, x < 256) (hsuf : s.data_encode_suffix = [])
    (i : Nat) (hi : i < s.len) :
    (NibbleSlice.new_offset (s.encoded leaf)
      (if s.len % 2 = 1 then 1 else 2)).atN i = s.atN i := by
  have hlt : ∀ k, s.atN k < 16 := fun k => s.atN_lt_16 k hb hsuf
  have hlen := encoded_length s leaf
  rcases Nat.mod_two_eq_zero_or_one s.len with hpar | hpar
  · -- even length: decode offset 2
    rw [if_neg (by omega)]
    conv_lhs => simp only [NibbleSlice.atN, NibbleSlice.new_offset]
    rw [if_pos (by omega)]
    have hidx : (2 + i) / 2 = i / 2 + 1 := by omega
    have hj : i / 2 < s.len / 2 := by omega
    rw [hidx, encoded_getD_succ s leaf _ hj, hpar]
    rcases Nat.mod_two_eq_zero_or_one i with hip | hip
    · rw [if_neg (by omega)]
      have h1 : 0 + 2 * (i / 2) = i := by omega
      rw [h1]
      have h2 := hlt (i + 1)
      have h3 := hlt i
      omega
    · rw [if_pos (by omega)]
      have h1 : 0 + 2 * (i / 2) + 1 = i := by omega
      rw [h1]
      have h2 := hlt (0 + 2 * (i / 2))
      have h3 := hlt i
      omega
  · -- odd length: decode offset 1
    rw [if_pos hpar]
    conv_lhs => simp only [NibbleSlice.atN, NibbleSlice.new_offset]
    rw [if_pos (by omega)]
    rcases Nat.eq_zero_or_pos i with hi0 | hipos
    · subst hi0
      rw [if_pos (by omega)]
      have hz : (1 + 0) / 2 = 0 := by omega
      rw [hz, encoded_getD_zero s leaf, if_pos hpar]
      have ha := hlt 0
      rcases leaf with _ | _ <;> simp <;> omega
    · rcases Nat.mod_two_eq_zero_or_one i with hip | hip
      · -- i even, i at least 2: low half of the packed byte
        rw [if_pos (by omega)]
        have hidx : (1 + i) / 2 = (i / 2 - 1) + 1 := by omega
        have hj : i / 2 - 1 < s.len / 2 := by omega
        rw [hidx, encoded_getD_succ s leaf _ hj, hpar]
        have h1 : 1 + 2 * (i / 2 - 1) + 1 = i := by omega
        rw [h1]
        have h2 := hlt (1 + 2 * (i / 2 - 1))
        have h3 := hlt i
        omega
      · -- i odd: high half of the packed byte
        rw [if_neg (by omega)]
        have hidx : (1 + i) / 2 = (i - 1) / 2 + 1 := by omega
        have hj : (i - 1) / 2 < s.len / 2 := by omega
        rw [hidx, encoded_getD_succ s leaf _ hj, hpar]
        have h1 : 1 + 2 * ((i - 1) / 2) = i := by omega
        rw [h1]
        have h2 := hlt (i + 1)
        have h3 := hlt i
        omega

theorem head_div16 (par a : Nat) (lf : Bool) (ha : a < 16) (hpar : par = 0 ∨ par = 1) :
    ((if par = 1 then 16 + a else 0) + (if lf then 32 else 0)) / 16 % 2 = par := by
  rcases hpar with h | h <;> subst h <;> rcases lf with _ | _ <;> simp <;> omega

theorem head_div32 (par a : Nat) (lf : Bool) (ha : a < 16) (hpar : par = 0 ∨ par = 1) :
    ((((if par = 1 then 16 + a else 0) + (if lf then 32 else 0)) / 32 % 2 : Nat) == 1) = lf := by
  rcases hpar with h | h <;> subst h <;> rcases lf with _ | _ <;> simp <;> omega

theorem from_encoded_encoded (s : NibbleSlice) (leaf : Bool)
    (hb : ∀ x ∈ s.data, x < 256) (hsuf : s.data_encode_suffix = []) :
    NibbleSlice.from_encoded (s.encoded leaf) =
      (NibbleSlice.new_offset (s.encoded leaf) (if s.len % 2 = 1 then 1 else 2), leaf) := by
  have ha := s.atN_lt_16 0 hb hsuf
  have hd16 := head_div16 (s.len % 2) (s.atN 0) leaf ha (by omega)
  have hd32 := head_div32 (s.len % 2) (s.atN 0) leaf ha (by omega)
  unfold NibbleSlice.from_encoded
  rw [encoded_getD_zero s leaf, hd16, hd32]

/-- C8: Hex-Prefix round-trip.  For every nibble view over a byte slice with a
valid nibble offset and every leaf flag, from_encoded(encoded(leaf)) yields a
view equal to the original (PartialEq of the source: equal length together
with starts_with) and the flag leaf. -/
theorem hp_round_trip (b : List Nat) (o : Nat) (leaf : Bool)
    (hb : ∀ x ∈ b, x < 256) (ho : o ≤ 2 * b.length) :
    NibbleSlice.beqN
      (NibbleSlice.from_encoded ((NibbleSlice.new_offset b o).encoded leaf)).1
      (NibbleSlice.new_offset b o) = true ∧
    (NibbleSlice.from_encoded ((NibbleSlice.new_offset b o).encoded leaf)).2 = leaf := by
  have hvb : ∀ x ∈ (NibbleSlice.new_offset b o).data, x < 256 := hb
  have hvs : (NibbleSlice.new_offset b o).data_encode_suffix = [] := rfl
  rw [from_encoded_encoded (NibbleSlice.new_offset b o) leaf hvb hvs]
  refine ⟨?_, rfl⟩
  have hlen := encoded_decoded_len (NibbleSlice.new_offset b o) leaf
  have hfind : (List.range (NibbleSlice.new_offset b o).len).find?
      (fun i => (NibbleSlice.new_offset ((NibbleSlice.new_offset b o).encoded leaf)
        (if (NibbleSlice.new_offset b o).len % 2 = 1 then 1 else 2)).atN i !=
        (NibbleSlice.new_offset b o).atN i) = none := by
    rw [List.find?_eq_none]
    intro i hi
    rw [List.mem_range] at hi
    simp [encoded_decoded_atN (NibbleSlice.new_offset b o) leaf hvb hvs i hi]
  simp [NibbleSlice.beqN, NibbleSlice.starts_with, NibbleSlice.common_prefix_count,
    hlen, hfind]

/-- C8 witness: the theorem applied to bytes [1, 35, 69] at offset 1 with the
leaf flag set. -/
theorem hp_round_trip_witness :
    (∀ x ∈ ([1, 35, 69] : List Nat), x < 256) ∧ 1 ≤ 2 * ([1, 35, 69] : List Nat).length ∧
    (NibbleSlice.beqN
      (NibbleSlice.from_encoded ((NibbleSlice.new_offset [1, 35, 69] 1).encoded true)).1
      (NibbleSlice.new_offset [1, 35, 69] 1) = true ∧
    (NibbleSlice.from_encoded ((NibbleSlice.new_offset [1, 35, 69] 1).encoded true)).2 = true) :=
  ⟨by decide, by decide, hp_round_trip [1, 35, 69] 1 true (by decide) (by decide)⟩

/-- C10: the PartialEq and PartialOrd implementations are mutually consistent:
partial_cmp returns Some(Equal) exactly when the PartialEq test (equal length
together with starts_with) succeeds, and partial_cmp always returns Some. -/
theorem nibble_cmp_eq_iff (a b : NibbleSlice) :
    (NibbleSlice.cmpNibbles a b = some Ordering.eq ↔ NibbleSlice.beqN a b = true) ∧
    (NibbleSlice.cmpNibbles a b).isSome = true := by
  unfold NibbleSlice.cmpNibbles NibbleSlice.beqN NibbleSlice.starts_with
    NibbleSlice.common_prefix_count
  cases hf : (List.range (min a.len b.len)).find? (fun i => a.atN i != b.atN i) with
  | none =>
    simp only [hf, Option.getD_none, Option.isSome_some, and_true]
    constructor
    · intro h
      have hlen : a.len = b.len := Nat.compare_eq_eq.mp (Option.some.inj h)
      rw [hlen, Nat.min_self]
      simp
    · intro h
      rw [Bool.and_eq_true, Nat.beq_eq_true_eq] at h
      rw [h.1, Nat.compare_eq_eq.mpr rfl]
  | some i =>
    have hpi := List.find?_some hf
    have hmem := List.mem_of_find?_eq_some hf
    rw [List.mem_range] at hmem
    have hne : a.atN i ≠ b.atN i := by
      intro hcon
      rw [hcon] at hpi
      simp at hpi
    simp only [hf, Option.getD_some, Option.isSome_some, and_true]
    constructor
    · intro h
      exact absurd (Nat.compare_eq_eq.mp (Option.some.inj h)) hne
    · intro h
      rw [Bool.and_eq_true, Nat.beq_eq_true_eq, Nat.beq_eq_true_eq] at h
      omega

/-! ## TxFlow DAG: core/txflow/src/dag/mod.rs

UID and StructHash are u64 in the source, modelled as Nat.  Payload stays a
type parameter (the DAG treats it as opaque).  Endorsements are opaque and
modelled as Nat.  The HashSet of messages keyed by computed_hash, the HashSet
of root references, and the HashMap participant_head are modelled as lists
with the corresponding set/map semantics. -/

/-- SignedMessageBody (primitives::types::MessageDataBody). -/
structure MessageDataBody (P : Type) where
  owner_uid : Nat
  parents : List Nat
  epoch : Nat
  payload : P
  endorsements : List Nat
deriving DecidableEq

/-- SignedMessageData: signature, claimed hash and body. -/
structure SignedMessageData (P : Type) where
  owner_sig : Nat
  hash : Nat
  body : MessageDataBody P
deriving DecidableEq

/-- The runtime Message node: the signed data plus the attributes derived by
Message::init.  The resolved parent references of the source are recovered by
hash lookup in the message set, which the source keys by computed_hash. -/
structure Message (P : Type) where
  data : SignedMessageData P
  computed_hash : Nat
  computed_epoch : Nat
deriving DecidableEq

/-- Modelled from the spec: Message::init lives in
core/txflow/src/dag/message.rs, which is not part of the given sources.  Per
the specification, computed_hash is the canonical hash of the body
(abstracted as the parameter hashFn) and computed_epoch is a pure function of
the parents' computed epochs, the owner UID, the starting epoch and the
witness selector (abstracted as the parameter epochFn, with the witness
selector folded into the function). -/
def Message.init {P : Type} (hashFn : MessageDataBody P → Nat)
    (epochFn : Nat → Nat → List Nat → Nat) (starting_epoch : Nat)
    (d : SignedMessageData P) (parents : List (Message P)) : Message P :=
  { data := d
  , computed_hash := hashFn d.body
  , computed_epoch := epochFn d.body.owner_uid starting_epoch
      (parents.map Message.computed_epoch) }

/-- Modelled from the spec: Message::assume_computed_hash_epoch (also in the
absent message.rs) copies computed_hash and computed_epoch back into
data.hash and data.body.epoch of a freshly synthesized message. -/
def Message.assume_computed_hash_epoch {P : Type} (m : Message P) : Message P :=
  { m with data := { m.data with
      hash := m.computed_hash,
      body := { m.data.body with epoch := m.computed_epoch } } }

/-- ViolationType of the misbehaviour reporter. -/
inductive ViolationType where
  | BadEpoch (message : Nat)
  | ForkAttempt (message_0 : Nat) (message_1 : Nat)
deriving DecidableEq

/-- The DAG state: owner, starting epoch, message set (keyed by
computed_hash), root set (stored as the computed hashes of the root nodes),
misbehaviour log and participant head map. -/
structure DAGState (P : Type) where
  owner_uid : Nat
  starting_epoch : Nat
  messages : List (Message P)
  roots : List Nat
  misbehaviour : List ViolationType
  participant_head : List (Nat × Nat)
deriving DecidableEq

/-- DAG::new. -/
def DAG.new (P : Type) (owner_uid starting_epoch : Nat) : DAGState P :=
  { owner_uid := owner_uid, starting_epoch := starting_epoch, messages := []
  , roots := [], misbehaviour := [], participant_head := [] }

/-- messages.get(&hash): lookup by computed_hash. -/
def lookupMessage {P : Type} (msgs : List (Message P)) (h : Nat) : Option (Message P) :=
  msgs.find? (fun m => m.computed_hash == h)

/-- messages.contains(&hash). -/
def containsMessage {P : Type} (msgs : List (Message P)) (h : Nat) : Bool :=
  (lookupMessage msgs h).isSome

/-- participant_head.get(&uid). -/
def headLookup (ph : List (Nat × Nat)) (u : Nat) : Option Nat :=
  (ph.find? (fun p => p.fst == u)).map Prod.snd

/-- participant_head.insert(uid, v) of a HashMap: overwrite semantics. -/
def headInsert (ph : List (Nat × Nat)) (u v : Nat) : List (Nat × Nat) :=
  (u, v) :: ph.filter (fun p => p.fst != u)

/-- roots.remove(&node): set removal keyed by computed_hash. -/
def rootsRemove (roots : List Nat) (h : Nat) : List Nat :=
  roots.filter (fun r => r != h)

/-- roots.insert(node): set insertion keyed by computed_hash. -/
def rootsInsert (roots : List Nat) (h : Nat) : List Nat :=
  if h ∈ roots then roots else roots ++ [h]

/-- messages.insert(node): set insertion keyed by computed_hash (a HashSet
insert is a no-op when an element with the same key is present). -/
def insertMessage {P : Type} (msgs : List (Message P)) (m : Message P) : List (Message P) :=
  if containsMessage msgs m.computed_hash then msgs else msgs ++ [m]

theorem filter_length_mono {α : Type} (p q : α → Bool) (l : List α)
    (h : ∀ a, p a = true → q a = true) : (l.filter p).length ≤ (l.filter q).length := by
  induction l with
  | nil => simp
  | cons a t ih =>
    simp only [List.filter_cons]
    by_cases hp : p a = true
    · rw [hp, h a hp]
      simpa using ih
    · rw [Bool.not_eq_true] at hp
      rw [hp]
      cases q a <;> simp <;> omega

/-- The while loop of DAG::find_fork.  The source pops the front of the
queue; a node owned by uid ends the search (no fork when its hash is the
recorded head, otherwise that branch stops); any other node is skipped when
already visited and otherwise marked visited and pushed back onto the queue
(the source pushes cur_message itself, line 86 of dag/mod.rs). -/
def findForkLoop {P : Type} (uid lastHash : Nat) (visited : List Nat)
    (queue : List (Message P)) : Option Nat :=
  match queue with
  | [] => some lastHash
  | cur :: rest =>
    if cur.data.body.owner_uid = uid then
      if cur.computed_hash = lastHash then none
      else findForkLoop uid lastHash visited rest
    else if cur.computed_hash ∈ visited then
      findForkLoop uid lastHash visited rest
    else
      findForkLoop uid lastHash (cur.computed_hash :: visited) (rest ++ [cur])
termination_by queue.length +
  (queue.filter (fun m => decide (m.computed_hash ∉ visited))).length
decreasing_by
  · simp only [List.length_cons, List.filter_cons]
    have := filter_length_mono (fun m : Message P => decide (m.computed_hash ∉ visited))
      (fun m : Message P => decide (m.computed_hash ∉ visited)) rest (fun a ha => ha)
    split <;> simp <;> omega
  · simp only [List.length_cons, List.filter_cons]
    split <;> simp <;> omega
  · rename_i huid hvis
    have hmono := filter_length_mono
      (fun m : Message P => decide (m.computed_hash ∉ cur.computed_hash :: visited))
      (fun m : Message P => decide (m.computed_hash ∉ visited)) rest
      (by
        intro a ha
        simp only [decide_eq_true_eq, List.mem_cons, not_or] at ha ⊢
        exact ha.2)
    simp [hvis, List.filter_cons, List.filter_append] at hmono ⊢
    omega

/-- DAG::find_fork.  When the author has a recorded head, the queue is seeded
with the resolved parents of the message and the visited set with their
hashes, then the loop runs; when the author has no recorded head the result
is no fork.  Parent references are resolved from the message set exactly as
add_existing_message populated them. -/
def findFork {P : Type} (s : DAGState P) (m : Message P) : Option Nat :=
  match headLookup s.participant_head m.data.body.owner_uid with
  | some lastHash =>
    let parents := m.data.body.parents.filterMap (lookupMessage s.messages)
    findForkLoop m.data.body.owner_uid lastHash
      (parents.map Message.computed_hash) parents
  | none => none

/-- DAG::verify_message: report BadEpoch when the computed epoch disagrees
with the body epoch, then report ForkAttempt when find_fork yields a hash.
The source always returns Ok; the model returns the updated state. -/
def verifyMessage {P : Type} (s : DAGState P) (m : Message P) : DAGState P :=
  let s1 := if m.computed_epoch ≠ m.data.body.epoch
    then { s with misbehaviour := s.misbehaviour ++ [ViolationType.BadEpoch m.computed_hash] }
    else s
  match findFork s1 m with
  | some fh =>
    { s1 with misbehaviour := s1.misbehaviour ++ [ViolationType.ForkAttempt fh m.computed_hash] }
  | none => s1

/-- The parent-resolution loop of DAG::add_existing_message: each parent hash
is looked up in the message set, stopping at the first unknown parent. -/
def resolveParents {P : Type} (msgs : List (Message P)) : List Nat → Option (List (Message P))
  | [] => some []
  | h :: t =>
    match lookupMessage msgs h with
    | none => none
    | some m => (resolveParents msgs t).map (fun ps => m :: ps)

/-- The result of DAG::add_existing_message: Ok, or the unknown-parent
error (the only error the source can return). -/
inductive AddOutcome where
  | ok
  | unknownParent
deriving DecidableEq

/-- DAG::add_existing_message.  Dedupe on the claimed hash; resolve parents
(unknown parent is the error path and leaves the state unchanged); init the
wrapped message; verify (which may record violations); remove the parents
from the roots; update participant_head; insert into messages and roots. -/
def addExistingMessage {P : Type} (hashFn : MessageDataBody P → Nat)
    (epochFn : Nat → Nat → List Nat → Nat) (s : DAGState P)
    (d : SignedMessageData P) : AddOutcome × DAGState P :=
  if containsMessage s.messages d.hash then (AddOutcome.ok, s)
  else
    match resolveParents s.messages d.body.parents with
    | none => (AddOutcome.unknownParent, s)
    | some ps =>
      let m := Message.init hashFn epochFn s.starting_epoch d ps
      let s1 := verifyMessage s m
      let s2 := { s1 with
        roots := ps.foldl (fun r (p : Message P) => rootsRemove r p.computed_hash) s1.roots,
        participant_head := headInsert s1.participant_head d.body.owner_uid m.computed_hash }
      (AddOutcome.ok, { s2 with
        messages := insertMessage s2.messages m,
        roots := rootsInsert s2.roots m.computed_hash })

/-- The body DAG::create_root_message builds: the current owner, the hashes
of the current roots as parents, placeholder epoch 0, and the supplied
payload and endorsements. -/
def rootBody {P : Type} (s : DAGState P) (payload : P) (endorsements : List Nat) :
    MessageDataBody P :=
  { owner_uid := s.owner_uid, parents := s.roots, epoch := 0
  , payload := payload, endorsements := endorsements }

/-- DAG::create_root_message: wrap the new data (placeholder signature and
hash 0), init (the source calls init without populating the parent reference
set, so the parent list given to init is empty), assume_computed_hash_epoch,
insert into messages, and collapse the roots to the new node.  This
operation cannot fail. -/
def createRootMessage {P : Type} (hashFn : MessageDataBody P → Nat)
    (epochFn : Nat → Nat → List Nat → Nat) (s : DAGState P)
    (payload : P) (endorsements : List Nat) : Message P × DAGState P :=
  let d : SignedMessageData P :=
    { owner_sig := 0, hash := 0, body := rootBody s payload endorsements }
  let m := (Message.init hashFn epochFn s.starting_epoch d []).assume_computed_hash_epoch
  (m, { s with messages := insertMessage s.messages m, roots := [m.computed_hash] })

/-- Modelled from the spec: the ancestor relation of the fork-detection
description in the specification (the ancestor BFS that enqueues the parents
of each popped node).  ancestorReaches s fuel h target holds when some
ancestor path from the message with hash h reaches the hash target by
following body parent hashes through the message set; fuel bounds the
recursion depth and only needs to exceed the path length. -/
def ancestorReaches {P : Type} (s : DAGState P) : Nat → Nat → Nat → Bool
  | 0, _, _ => false
  | fuel + 1, h, target =>
    h == target ||
    (match lookupMessage s.messages h with
     | none => false
     | some c => c.data.body.parents.any (fun p => ancestorReaches s fuel p target))

/-! Helper lemmas for the DAG model. -/

theorem lookupMessage_some {P : Type} {msgs : List (Message P)} {h : Nat} {m : Message P}
    (hl : lookupMessage msgs h = some m) : m.computed_hash = h ∧ m ∈ msgs := by
  unfold lookupMessage at hl
  have hp := List.find?_some hl
  have hm := List.mem_of_find?_eq_some hl
  simp only [beq_iff_eq] at hp
  exact ⟨hp, hm⟩

theorem containsMessage_iff {P : Type} (msgs : List (Message P)) (h : Nat) :
    containsMessage msgs h = true ↔ ∃ m ∈ msgs, m.computed_hash = h := by
  unfold containsMessage lookupMessage
  rw [List.find?_isSome]
  constructor
  · rintro ⟨m, hm, hp⟩
    simp only [beq_iff_eq] at hp
    exact ⟨m, hm, hp⟩
  · rintro ⟨m, hm, hp⟩
    exact ⟨m, hm, by simp [hp]⟩

theorem containsMessage_of_lookup_some {P : Type} {msgs : List (Message P)} {h : Nat}
    {m : Message P} (hl : lookupMessage msgs h = some m) :
    containsMessage msgs h = true := by
  unfold containsMessage
  rw [hl]
  rfl

theorem resolveParents_none_iff {P : Type} (msgs : List (Message P)) (hs : List Nat) :
    resolveParents msgs hs = none ↔ ∃ h ∈ hs, containsMessage msgs h = false := by
  induction hs with
  | nil => simp [resolveParents]
  | cons h t ih =>
    unfold resolveParents
    cases hl : lookupMessage msgs h with
    | none =>
      simp only [true_iff]
      refine ⟨h, List.mem_cons_self h t, ?_⟩
      unfold containsMessage
      rw [hl]
      rfl
    | some m =>
      have hcont := containsMessage_of_lookup_some hl
      constructor
      · intro hmap
        have ht : resolveParents msgs t = none := by
          cases hr : resolveParents msgs t with
          | none => rfl
          | some ps => rw [hr] at hmap; simp at hmap
        rcases ih.mp ht with ⟨h2, hh2, hc⟩
        exact ⟨h2, List.mem_cons_of_mem h hh2, hc⟩
      · rintro ⟨h2, hh2, hc⟩
        rcases List.mem_cons.mp hh2 with rfl | hh2t
        · rw [hc] at hcont; cases hcont
        · rw [ih.mpr ⟨h2, hh2t, hc⟩]
          rfl

theorem resolveParents_some {P : Type} {msgs : List (Message P)} {hs : List Nat}
    {ps : List (Message P)} (hr : resolveParents msgs hs = some ps) :
    ps.map Message.computed_hash = hs ∧ ∀ p ∈ ps, p ∈ msgs := by
  induction hs generalizing ps with
  | nil =>
    unfold resolveParents at hr
    cases hr
    simp
  | cons h t ih =>
    unfold resolveParents at hr
    cases hl : lookupMessage msgs h with
    | none => rw [hl] at hr; cases hr
    | some m =>
      rw [hl] at hr
      cases hrt : resolveParents msgs t with
      | none => rw [hrt] at hr; cases hr
      | some qs =>
        rw [hrt] at hr
        simp at hr
        rcases hr with ⟨rfl⟩
        rcases lookupMessage_some hl with ⟨hch, hmem⟩
        rcases ih hrt with ⟨hmap, hmems⟩
        refine ⟨?_, ?_⟩
        · simp [hmap, hch]
        · intro p hp
          rcases List.mem_cons.mp hp with rfl | hpq
          · exact hmem
          · exact hmems p hpq

theorem verify_components {P : Type} (s : DAGState P) (m : Message P) :
    (verifyMessage s m).owner_uid = s.owner_uid ∧
    (verifyMessage s m).starting_epoch = s.starting_epoch ∧
    (verifyMessage s m).messages = s.messages ∧
    (verifyMessage s m).roots = s.roots ∧
    (verifyMessage s m).participant_head = s.participant_head ∧
    ∃ t, (verifyMessage s m).misbehaviour = s.misbehaviour ++ t := by
  simp only [verifyMessage]
  by_cases hep : m.computed_epoch ≠ m.data.body.epoch
  · rw [if_pos hep]
    cases hf : findFork { s with
        misbehaviour := s.misbehaviour ++ [ViolationType.BadEpoch m.computed_hash] } m with
    | some fh =>
      exact ⟨rfl, rfl, rfl, rfl, rfl,
        [ViolationType.BadEpoch m.computed_hash, ViolationType.ForkAttempt fh m.computed_hash],
        by simp⟩
    | none => exact ⟨rfl, rfl, rfl, rfl, rfl, _, rfl⟩
  · rw [if_neg hep]
    cases hf : findFork s m with
    | some fh => exact ⟨rfl, rfl, rfl, rfl, rfl, _, rfl⟩
    | none => exact ⟨rfl, rfl, rfl, rfl, rfl, [], by simp⟩

theorem verify_badepoch_mem {P : Type} (s : DAGState P) (m : Message P)
    (hep : m.computed_epoch ≠ m.data.body.epoch) :
    ViolationType.BadEpoch m.computed_hash ∈ (verifyMessage s m).misbehaviour := by
  simp only [verifyMessage]
  rw [if_pos hep]
  cases hf : findFork { s with
      misbehaviour := s.misbehaviour ++ [ViolationType.BadEpoch m.computed_hash] } m with
  | some fh => simp
  | none => simp

theorem foldl_rootsRemove_mem {P : Type} (ps : List (Message P)) (R : List Nat) (h : Nat) :
    h ∈ ps.foldl (fun r (p : Message P) => rootsRemove r p.computed_hash) R ↔
      h ∈ R ∧ ∀ p ∈ ps, h ≠ p.computed_hash := by
  induction ps generalizing R with
  | nil => simp
  | cons q qs ih =>
    simp only [List.foldl_cons]
    rw [ih]
    unfold rootsRemove
    simp only [List.mem_filter, bne_iff_ne, ne_eq]
    constructor
    · rintro ⟨⟨hR, hq⟩, hqs⟩
      refine ⟨hR, ?_⟩
      intro p hp
      rcases List.mem_cons.mp hp with rfl | hpq
      · exact hq
      · exact hqs p hpq
    · rintro ⟨hR, hall⟩
      exact ⟨⟨hR, hall q (List.mem_cons_self q qs)⟩,
        fun p hp => hall p (List.mem_cons_of_mem q hp)⟩

theorem rootsInsert_mem (R : List Nat) (x h : Nat) :
    h ∈ rootsInsert R x ↔ h ∈ R ∨ h = x := by
  unfold rootsInsert
  by_cases hx : x ∈ R
  · rw [if_pos hx]
    constructor
    · exact Or.inl
    · rintro (hh | rfl)
      · exact hh
      · exact hx
  · rw [if_neg hx]
    simp

theorem insertMessage_contains {P : Type} (msgs : List (Message P)) (m : Message P) :
    containsMessage (insertMessage msgs m) m.computed_hash = true := by
  unfold insertMessage
  by_cases hc : containsMessage msgs m.computed_hash = true
  · rw [if_pos hc]; exact hc
  · rw [Bool.not_eq_true] at hc
    rw [if_neg (by rw [hc]; simp)]
    rw [containsMessage_iff]
    exact ⟨m, by simp, rfl⟩

theorem insertMessage_fresh {P : Type} (msgs : List (Message P)) (m : Message P)
    (hc : containsMessage msgs m.computed_hash = false) :
    insertMessage msgs m = msgs ++ [m] := by
  unfold insertMessage
  rw [if_neg (by rw [hc]; simp)]

theorem find?_filter_of_imp {α : Type} (l : List α) (p q : α → Bool)
    (h : ∀ a, p a = true → q a = true) : (l.filter q).find? p = l.find? p := by
  induction l with
  | nil => simp
  | cons a t ih =>
    simp only [List.filter_cons]
    by_cases hq : q a = true
    · rw [if_pos hq]
      cases hp : p a with
      | true => simp [List.find?_cons, hp]
      | false => simp [List.find?_cons, hp, ih]
    · rw [Bool.not_eq_true] at hq
      rw [if_neg (by rw [hq]; simp)]
      have hp : p a = false := by
        cases hpa : p a with
        | true => rw [h a hpa] at hq; cases hq
        | false => rfl
      simp [List.find?_cons, hp, ih]

theorem headLookup_insert_self (ph : List (Nat × Nat)) (u v : Nat) :
    headLookup (headInsert ph u v) u = some v := by
  unfold headLookup headInsert
  simp [List.find?_cons]

theorem headLookup_insert_other (ph : List (Nat × Nat)) (u v u2 : Nat) (hne : u2 ≠ u) :
    headLookup (headInsert ph u v) u2 = headLookup ph u2 := by
  unfold headLookup headInsert
  rw [List.find?_cons]
  have hcond : (((u, v).fst == u2) : Bool) = false := by
    simp
    omega
  rw [hcond]
  simp only [Bool.false_eq_true, if_false]
  rw [find?_filter_of_imp ph (fun p => p.fst == u2) (fun p => p.fst != u)]
  intro a ha
  simp only [beq_iff_eq] at ha
  simp [ha]
  omega

theorem add_success_state {P : Type} (hf : MessageDataBody P → Nat)
    (ef : Nat → Nat → List Nat → Nat) (s : DAGState P) (d : SignedMessageData P)
    (ps : List (Message P))
    (h1 : containsMessage s.messages d.hash = false)
    (h2 : resolveParents s.messages d.body.parents = some ps) :
    addExistingMessage hf ef s d =
      (AddOutcome.ok,
       { owner_uid := (verifyMessage s (Message.init hf ef s.starting_epoch d ps)).owner_uid
       , starting_epoch :=
           (verifyMessage s (Message.init hf ef s.starting_epoch d ps)).starting_epoch
       , messages := insertMessage
           (verifyMessage s (Message.init hf ef s.starting_epoch d ps)).messages
           (Message.init hf ef s.starting_epoch d ps)
       , roots := rootsInsert
           (ps.foldl (fun r (p : Message P) => rootsRemove r p.computed_hash)
             (verifyMessage s (Message.init hf ef s.starting_epoch d ps)).roots)
           (Message.init hf ef s.starting_epoch d ps).computed_hash
       , misbehaviour := (verifyMessage s (Message.init hf ef s.starting_epoch d ps)).misbehaviour
       , participant_head := headInsert
           (verifyMessage s (Message.init hf ef s.starting_epoch d ps)).participant_head
           d.body.owner_uid (Message.init hf ef s.starting_epoch d ps).computed_hash }) := by
  unfold addExistingMessage
  rw [if_neg (by rw [h1]; simp), h2]

/-- C2: add_existing_message returns the unknown-parent error iff the hash is
new and some parent is absent; the error path leaves the state unchanged; the
success path leaves the message present in messages (for data whose claimed
hash is the canonical hash of its body). -/
theorem add_unknown_parent_characterization {P : Type}
    (hf : MessageDataBody P → Nat) (ef : Nat → Nat → List Nat → Nat)
    (s : DAGState P) (d : SignedMessageData P) :
    ((addExistingMessage hf ef s d).1 = AddOutcome.unknownParent ↔
      containsMessage s.messages d.hash = false ∧
        ∃ p ∈ d.body.parents, containsMessage s.messages p = false) ∧
    ((addExistingMessage hf ef s d).1 = AddOutcome.unknownParent →
      (addExistingMessage hf ef s d).2 = s) ∧
    (d.hash = hf d.body → (addExistingMessage hf ef s d).1 = AddOutcome.ok →
      containsMessage (addExistingMessage hf ef s d).2.messages d.hash = true) := by
  by_cases h1 : containsMessage s.messages d.hash = true
  · have heq : addExistingMessage hf ef s d = (AddOutcome.ok, s) := by
      unfold addExistingMessage
      rw [if_pos h1]
    rw [heq]
    refine ⟨by simp [h1], ?_, ?_⟩
    · intro hcon
      exact absurd hcon (by simp)
    · intro _ _
      exact h1
  · rw [Bool.not_eq_true] at h1
    cases h2 : resolveParents s.messages d.body.parents with
    | none =>
      have heq : addExistingMessage hf ef s d = (AddOutcome.unknownParent, s) := by
        unfold addExistingMessage
        rw [if_neg (by rw [h1]; simp), h2]
      rw [heq]
      refine ⟨?_, fun _ => rfl, ?_⟩
      · simp only [true_iff]
        exact ⟨h1, (resolveParents_none_iff s.messages d.body.parents).mp h2⟩
      · intro _ hcon
        exact absurd hcon (by simp)
    | some ps =>
      rw [add_success_state hf ef s d ps h1 h2]
      refine ⟨?_, ?_, ?_⟩
      · constructor
        · intro hcon
          exact absurd hcon (by simp)
        · rintro ⟨_, hex⟩
          have hnone := (resolveParents_none_iff s.messages d.body.parents).mpr hex
          rw [h2] at hnone
          cases hnone
      · intro hcon
        exact absurd hcon (by simp)
      · intro hhash _
        have hvm := (verify_components s (Message.init hf ef s.starting_epoch d ps)).2.2.1
        show containsMessage (insertMessage
          (verifyMessage s (Message.init hf ef s.starting_epoch d ps)).messages
          (Message.init hf ef s.starting_epoch d ps)) d.hash = true
        rw [hvm]
        have hdh : d.hash = (Message.init hf ef s.starting_epoch d ps).computed_hash := hhash
        rw [hdh]
        exact insertMessage_contains s.messages (Message.init hf ef s.starting_epoch d ps)

/-- Concrete hash function for witnesses: injective on the message bodies the
witnesses use. -/
def hashW : MessageDataBody Unit → Nat :=
  fun b => b.owner_uid + 10 * b.parents.length +
    100 * b.parents.foldl (fun a x => a + x) 0 + 1000 * b.epoch

/-- Concrete epoch function for witnesses. -/
def efW : Nat → Nat → List Nat → Nat := fun _ _ _ => 0

/-- Concrete message data for the C2 witness: claimed hash 1, one unknown
parent hash 5. -/
def dW2 : SignedMessageData Unit :=
  { owner_sig := 0, hash := 1
  , body := { owner_uid := 0, parents := [5], epoch := 0, payload := (), endorsements := [] } }

/-- C2 witness: the characterization applied at the empty DAG and dW2. -/
theorem add_unknown_parent_characterization_witness :
    ((addExistingMessage hashW efW (DAG.new Unit 0 0) dW2).1 = AddOutcome.unknownParent ↔
      containsMessage (DAG.new Unit 0 0).messages dW2.hash = false ∧
        ∃ p ∈ dW2.body.parents, containsMessage (DAG.new Unit 0 0).messages p = false) ∧
    ((addExistingMessage hashW efW (DAG.new Unit 0 0) dW2).1 = AddOutcome.unknownParent →
      (addExistingMessage hashW efW (DAG.new Unit 0 0) dW2).2 = DAG.new Unit 0 0) ∧
    (dW2.hash = hashW dW2.body →
      (addExistingMessage hashW efW (DAG.new Unit 0 0) dW2).1 = AddOutcome.ok →
      containsMessage (addExistingMessage hashW efW (DAG.new Unit 0 0) dW2).2.messages
        dW2.hash = true) :=
  add_unknown_parent_characterization hashW efW (DAG.new Unit 0 0) dW2

/-- C5: re-ingesting a SignedMessageData whose hash is already present in
messages returns OK and leaves the whole state, in particular the sizes of
messages, roots and the violations log, unchanged. -/
theorem add_idempotent_reingest {P : Type} (hf : MessageDataBody P → Nat)
    (ef : Nat → Nat → List Nat → Nat) (s : DAGState P) (d : SignedMessageData P)
    (h : containsMessage s.messages d.hash = true) :
    (addExistingMessage hf ef s d).1 = AddOutcome.ok ∧
    (addExistingMessage hf ef s d).2 = s ∧
    (addExistingMessage hf ef s d).2.messages.length = s.messages.length ∧
    (addExistingMessage hf ef s d).2.roots.length = s.roots.length ∧
    (addExistingMessage hf ef s d).2.misbehaviour.length = s.misbehaviour.length := by
  have heq : addExistingMessage hf ef s d = (AddOutcome.ok, s) := by
    unfold addExistingMessage
    rw [if_pos h]
  rw [heq]
  exact ⟨rfl, rfl, rfl, rfl, rfl⟩

/-- Concrete message for the C5 witness: owner 3, no parents, epoch 0, so its
canonical hash under hashW is 3. -/
def dW5 : SignedMessageData Unit :=
  { owner_sig := 0, hash := 3
  , body := { owner_uid := 3, parents := [], epoch := 0, payload := (), endorsements := [] } }

/-- The state the C5 witness re-ingests into: the result of first ingesting
dW5 into the empty DAG. -/
def sW5 : DAGState Unit := (addExistingMessage hashW efW (DAG.new Unit 3 0) dW5).2

/-- C5 witness: re-ingesting dW5 into sW5, which already contains its hash. -/
theorem add_idempotent_reingest_witness :
    containsMessage sW5.messages dW5.hash = true ∧
    ((addExistingMessage hashW efW sW5 dW5).1 = AddOutcome.ok ∧
     (addExistingMessage hashW efW sW5 dW5).2 = sW5 ∧
     (addExistingMessage hashW efW sW5 dW5).2.messages.length = sW5.messages.length ∧
     (addExistingMessage hashW efW sW5 dW5).2.roots.length = sW5.roots.length ∧
     (addExistingMessage hashW efW sW5 dW5).2.misbehaviour.length = sW5.misbehaviour.length) :=
  ⟨by decide, add_idempotent_reingest hashW efW sW5 dW5 (by decide)⟩

/-- C3: when every parent of a message is present, add_existing_message
returns OK even if the message exhibits reportable violations; in particular,
on the fresh-insert path a mismatch between the derived epoch and the body
epoch records BadEpoch with the message's canonical hash while the message is
still inserted into messages and roots. -/
theorem add_records_violations_without_rejecting {P : Type}
    (hf : MessageDataBody P → Nat) (ef : Nat → Nat → List Nat → Nat)
    (s : DAGState P) (d : SignedMessageData P)
    (hpar : ∀ p ∈ d.body.parents, containsMessage s.messages p = true) :
    (addExistingMessage hf ef s d).1 = AddOutcome.ok ∧
    (∀ ps, resolveParents s.messages d.body.parents = some ps →
      containsMessage s.messages d.hash = false →
      ef d.body.owner_uid s.starting_epoch (ps.map Message.computed_epoch) ≠ d.body.epoch →
      ViolationType.BadEpoch (hf d.body) ∈ (addExistingMessage hf ef s d).2.misbehaviour ∧
      containsMessage (addExistingMessage hf ef s d).2.messages (hf d.body) = true ∧
      hf d.body ∈ (addExistingMessage hf ef s d).2.roots) := by
  constructor
  · by_cases h1 : containsMessage s.messages d.hash = true
    · unfold addExistingMessage
      rw [if_pos h1]
    · rw [Bool.not_eq_true] at h1
      cases h2 : resolveParents s.messages d.body.parents with
      | none =>
        rcases (resolveParents_none_iff _ _).mp h2 with ⟨p, hp, hc⟩
        rw [hpar p hp] at hc
        cases hc
      | some ps =>
        unfold addExistingMessage
        rw [if_neg (by rw [h1]; simp), h2]
  · intro ps h2 h1 hep
    rw [add_success_state hf ef s d ps h1 h2]
    refine ⟨?_, ?_, ?_⟩
    · exact verify_badepoch_mem s (Message.init hf ef s.starting_epoch d ps) hep
    · show containsMessage (insertMessage
        (verifyMessage s (Message.init hf ef s.starting_epoch d ps)).messages
        (Message.init hf ef s.starting_epoch d ps)) (hf d.body) = true
      rw [(verify_components s (Message.init hf ef s.starting_epoch d ps)).2.2.1]
      exact insertMessage_contains s.messages (Message.init hf ef s.starting_epoch d ps)
    · exact (rootsInsert_mem _ _ _).mpr (Or.inr rfl)

/-- Concrete message for the C3 witness, the bad-epoch scenario of the
specification: owner 0, no parents, body epoch 1, derived epoch 0; under
hashW its canonical hash is 1000. -/
def dW3 : SignedMessageData Unit :=
  { owner_sig := 0, hash := 1000
  , body := { owner_uid := 0, parents := [], epoch := 1, payload := (), endorsements := [] } }

/-- C3 witness: ingesting the bad-epoch message dW3 into the empty DAG. -/
theorem add_records_violations_without_rejecting_witness :
    (∀ p ∈ dW3.body.parents, containsMessage (DAG.new Unit 0 0).messages p = true) ∧
    resolveParents (DAG.new Unit 0 0).messages dW3.body.parents = some [] ∧
    containsMessage (DAG.new Unit 0 0).messages dW3.hash = false ∧
    efW dW3.body.owner_uid (DAG.new Unit 0 0).starting_epoch
      (List.map Message.computed_epoch ([] : List (Message Unit))) ≠ dW3.body.epoch ∧
    ((addExistingMessage hashW efW (DAG.new Unit 0 0) dW3).1 = AddOutcome.ok ∧
     (ViolationType.BadEpoch (hashW dW3.body) ∈
        (addExistingMessage hashW efW (DAG.new Unit 0 0) dW3).2.misbehaviour ∧
      containsMessage (addExistingMessage hashW efW (DAG.new Unit 0 0) dW3).2.messages
        (hashW dW3.body) = true ∧
      hashW dW3.body ∈ (addExistingMessage hashW efW (DAG.new Unit 0 0) dW3).2.roots)) :=
  ⟨by decide, by decide, by decide, by decide,
   (add_records_violations_without_rejecting hashW efW (DAG.new Unit 0 0) dW3
      (by decide)).1,
   (add_records_violations_without_rejecting hashW efW (DAG.new Unit 0 0) dW3
      (by decide)).2 [] (by decide) (by decide) (by decide)⟩

/-- C6: create_root_message cannot fail (it is a total function of the
model); when the canonical hash of the synthesized body is fresh, the new
message's parents are exactly the root hashes current at the call, messages
grows by exactly one node, and roots becomes exactly the one new node. -/
theorem create_root_message_spec {P : Type} (hf : MessageDataBody P → Nat)
    (ef : Nat → Nat → List Nat → Nat) (s : DAGState P) (p : P) (e : List Nat)
    (hfresh : containsMessage s.messages (hf (rootBody s p e)) = false) :
    (createRootMessage hf ef s p e).1.data.body.parents = s.roots ∧
    (createRootMessage hf ef s p e).2.messages.length = s.messages.length + 1 ∧
    (createRootMessage hf ef s p e).2.roots
      = [(createRootMessage hf ef s p e).1.computed_hash] := by
  refine ⟨rfl, ?_, rfl⟩
  show (insertMessage s.messages ((Message.init hf ef s.starting_epoch
      { owner_sig := 0, hash := 0, body := rootBody s p e }
      []).assume_computed_hash_epoch)).length = s.messages.length + 1
  rw [insertMessage_fresh s.messages _ hfresh]
  simp

/-- First message for the two-root witness state: owner 1, hashW hash 1. -/
def dW6a : SignedMessageData Unit :=
  { owner_sig := 0, hash := 1
  , body := { owner_uid := 1, parents := [], epoch := 0, payload := (), endorsements := [] } }

/-- Second message for the two-root witness state: owner 2, hashW hash 2. -/
def dW6b : SignedMessageData Unit :=
  { owner_sig := 0, hash := 2
  , body := { owner_uid := 2, parents := [], epoch := 0, payload := (), endorsements := [] } }

/-- A reachable state with two roots, built by ingesting dW6a and dW6b into
the empty DAG owned by participant 9. -/
def sW6 : DAGState Unit :=
  (addExistingMessage hashW efW
    (addExistingMessage hashW efW (DAG.new Unit 9 0) dW6a).2 dW6b).2

/-- C6 witness: collapsing the two roots of sW6 with a synthesized message. -/
theorem create_root_message_spec_witness :
    containsMessage sW6.messages (hashW (rootBody sW6 () [])) = false ∧
    ((createRootMessage hashW efW sW6 () []).1.data.body.parents = sW6.roots ∧
     (createRootMessage hashW efW sW6 () []).2.messages.length = sW6.messages.length + 1 ∧
     (createRootMessage hashW efW sW6 () []).2.roots
       = [(createRootMessage hashW efW sW6 () []).1.computed_hash]) :=
  ⟨by decide, create_root_message_spec hashW efW sW6 () [] (by decide)⟩

/-- C4 counterexample: create_root_message contributes a message from the
owner (uid 7) yet records no participant_head entry for uid 7, so
participant_head does not track messages contributed via
create_root_message. -/
theorem create_root_skips_participant_head :
    (createRootMessage hashW efW (DAG.new Unit 7 0) () []).2.messages
      = [(createRootMessage hashW efW (DAG.new Unit 7 0) () []).1] ∧
    (createRootMessage hashW efW (DAG.new Unit 7 0) () []).1.data.body.owner_uid = 7 ∧
    headLookup
      (createRootMessage hashW efW (DAG.new Unit 7 0) () []).2.participant_head 7 = none := by
  decide

/-- C4 amended: participant_head tracks exactly the messages newly inserted
by add_existing_message: create_root_message never touches participant_head;
the dedupe and error paths of add_existing_message leave it unchanged; and a
fresh insert sets the author's entry to the canonical hash of the inserted
message while leaving every other participant's entry unchanged. -/
theorem participant_head_characterization {P : Type}
    (hf : MessageDataBody P → Nat) (ef : Nat → Nat → List Nat → Nat) :
    (∀ (s : DAGState P) (p : P) (e : List Nat),
       (createRootMessage hf ef s p e).2.participant_head = s.participant_head) ∧
    (∀ (s : DAGState P) (d : SignedMessageData P),
       (containsMessage s.messages d.hash = true →
         (addExistingMessage hf ef s d).2.participant_head = s.participant_head) ∧
       (resolveParents s.messages d.body.parents = none →
         (addExistingMessage hf ef s d).2.participant_head = s.participant_head) ∧
       (∀ ps, containsMessage s.messages d.hash = false →
         resolveParents s.messages d.body.parents = some ps →
         headLookup (addExistingMessage hf ef s d).2.participant_head d.body.owner_uid
           = some (hf d.body) ∧
         ∀ u, u ≠ d.body.owner_uid →
           headLookup (addExistingMessage hf ef s d).2.participant_head u
             = headLookup s.participant_head u)) := by
  constructor
  · intro s p e
    rfl
  · intro s d
    refine ⟨?_, ?_, ?_⟩
    · intro h
      unfold addExistingMessage
      rw [if_pos h]
    · intro h2
      by_cases h1 : containsMessage s.messages d.hash = true
      · unfold addExistingMessage
        rw [if_pos h1]
      · rw [Bool.not_eq_true] at h1
        unfold addExistingMessage
        rw [if_neg (by rw [h1]; simp), h2]
    · intro ps h1 h2
      rw [add_success_state hf ef s d ps h1 h2]
      have hph := (verify_components s (Message.init hf ef s.starting_epoch d ps)).2.2.2.2.1
      constructor
      · show headLookup (headInsert
          (verifyMessage s (Message.init hf ef s.starting_epoch d ps)).participant_head
          d.body.owner_uid (Message.init hf ef s.starting_epoch d ps).computed_hash)
          d.body.owner_uid = some (hf d.body)
        rw [headLookup_insert_self]
        rfl
      · intro u hu
        show headLookup (headInsert
          (verifyMessage s (Message.init hf ef s.starting_epoch d ps)).participant_head
          d.body.owner_uid (Message.init hf ef s.starting_epoch d ps).computed_hash) u
          = headLookup s.participant_head u
        rw [headLookup_insert_other _ _ _ _ hu, hph]

/-- C4 witness: the amended characterization applied at the concrete
functions hashW and efW. -/
theorem participant_head_characterization_witness :
    (∀ (s : DAGState Unit) (p : Unit) (e : List Nat),
       (createRootMessage hashW efW s p e).2.participant_head = s.participant_head) ∧
    (∀ (s : DAGState Unit) (d : SignedMessageData Unit),
       (containsMessage s.messages d.hash = true →
         (addExistingMessage hashW efW s d).2.participant_head = s.participant_head) ∧
       (resolveParents s.messages d.body.parents = none →
         (addExistingMessage hashW efW s d).2.participant_head = s.participant_head) ∧
       (∀ ps, containsMessage s.messages d.hash = false →
         resolveParents s.messages d.body.parents = some ps →
         headLookup (addExistingMessage hashW efW s d).2.participant_head d.body.owner_uid
           = some (hashW d.body) ∧
         ∀ u, u ≠ d.body.owner_uid →
           headLookup (addExistingMessage hashW efW s d).2.participant_head u
             = headLookup s.participant_head u)) :=
  participant_head_characterization hashW efW

/-- The roots invariant over a message set and a root set: every parent hash
resolves in the set, every root hash resolves in the set, and a hash is a
root exactly when it resolves and no message lists it as a parent. -/
structure RootsInv {P : Type} (msgs : List (Message P)) (roots : List Nat) : Prop where
  closure : ∀ m ∈ msgs, ∀ p ∈ m.data.body.parents, ∃ m2 ∈ msgs, m2.computed_hash = p
  roots_sub : ∀ h ∈ roots, ∃ m ∈ msgs, m.computed_hash = h
  roots_iff : ∀ h, h ∈ roots ↔
    ((∃ m ∈ msgs, m.computed_hash = h) ∧ ∀ m ∈ msgs, h ∉ m.data.body.parents)

/-- The DAG invariant of the specification, claims 3 of the invariants
section: roots is a subset of messages and a node is a root iff no node
lists it as a parent (plus the parent-closure needed to maintain it). -/
def DagWF {P : Type} (s : DAGState P) : Prop :=
  RootsInv s.messages s.roots

theorem rootsInv_insert {P : Type} (msgs : List (Message P)) (roots : List Nat)
    (M : Message P) (ps : List (Message P))
    (hinv : RootsInv msgs roots)
    (hfresh : containsMessage msgs M.computed_hash = false)
    (hmap : ps.map Message.computed_hash = M.data.body.parents)
    (hmems : ∀ p ∈ ps, p ∈ msgs) :
    RootsInv (msgs ++ [M])
      (rootsInsert (ps.foldl (fun r (p : Message P) => rootsRemove r p.computed_hash) roots)
        M.computed_hash) := by
  obtain ⟨hclo, hsub, hiff⟩ := hinv
  have hnotin : ∀ m2 ∈ msgs, m2.computed_hash ≠ M.computed_hash := by
    intro m2 hm2 hcon
    have hc : containsMessage msgs M.computed_hash = true :=
      (containsMessage_iff _ _).mpr ⟨m2, hm2, hcon⟩
    rw [hfresh] at hc
    cases hc
  have hMpar : M.computed_hash ∉ M.data.body.parents := by
    intro hcon
    rw [← hmap] at hcon
    rcases List.mem_map.mp hcon with ⟨p, hp, hpch⟩
    exact hnotin p (hmems p hp) hpch
  refine ⟨?_, ?_, ?_⟩
  · intro m hm p hp
    rcases List.mem_append.mp hm with hmold | hmnew
    · rcases hclo m hmold p hp with ⟨m2, hm2, hch⟩
      exact ⟨m2, List.mem_append_left _ hm2, hch⟩
    · rcases List.mem_singleton.mp hmnew with rfl
      rw [← hmap] at hp
      rcases List.mem_map.mp hp with ⟨q, hq, hqch⟩
      exact ⟨q, List.mem_append_left _ (hmems q hq), hqch⟩
  · intro h hh
    rcases (rootsInsert_mem _ _ _).mp hh with hh2 | rfl
    · rcases (foldl_rootsRemove_mem ps roots h).mp hh2 with ⟨hr, _⟩
      rcases hsub h hr with ⟨m, hm, hch⟩
      exact ⟨m, List.mem_append_left _ hm, hch⟩
    · exact ⟨M, List.mem_append_right _ (List.mem_singleton_self M), rfl⟩
  · intro h
    rw [rootsInsert_mem, foldl_rootsRemove_mem]
    by_cases hhM : h = M.computed_hash
    · subst hhM
      constructor
      · intro _
        refine ⟨⟨M, List.mem_append_right _ (List.mem_singleton_self M), rfl⟩, ?_⟩
        intro m hm hcon
        rcases List.mem_append.mp hm with hmold | hmnew
        · rcases hclo m hmold _ hcon with ⟨m2, hm2, hch⟩
          exact hnotin m2 hm2 hch
        · rcases List.mem_singleton.mp hmnew with rfl
          exact hMpar hcon
      · intro _
        exact Or.inr rfl
    · constructor
      · rintro (⟨hr, hnp⟩ | hcon)
        · rcases (hiff h).mp hr with ⟨hex, hall⟩
          refine ⟨?_, ?_⟩
          · rcases hex with ⟨m, hm, hch⟩
            exact ⟨m, List.mem_append_left _ hm, hch⟩
          · intro m hm hcon2
            rcases List.mem_append.mp hm with hmold | hmnew
            · exact hall m hmold hcon2
            · rcases List.mem_singleton.mp hmnew with rfl
              rw [← hmap] at hcon2
              rcases List.mem_map.mp hcon2 with ⟨q, hq, hqch⟩
              exact hnp q hq hqch.symm
        · exact absurd hcon hhM
      · rintro ⟨hex, hall⟩
        left
        have hexold : ∃ m ∈ msgs, m.computed_hash = h := by
          rcases hex with ⟨m, hm, hch⟩
          rcases List.mem_append.mp hm with hmold | hmnew
          · exact ⟨m, hmold, hch⟩
          · rcases List.mem_singleton.mp hmnew with rfl
            exact absurd hch.symm hhM
        have hallold : ∀ m ∈ msgs, h ∉ m.data.body.parents :=
          fun m hm => hall m (List.mem_append_left _ hm)
        refine ⟨(hiff h).mpr ⟨hexold, hallold⟩, ?_⟩
        intro q hq hcon
        have hpar : h ∈ M.data.body.parents := by
          rw [← hmap]
          exact List.mem_map.mpr ⟨q, hq, hcon.symm⟩
        exact hall M (List.mem_append_right _ (List.mem_singleton_self M)) hpar

theorem rootsInv_create {P : Type} (msgs : List (Message P)) (roots : List Nat)
    (M : Message P)
    (hinv : RootsInv msgs roots)
    (hfresh : containsMessage msgs M.computed_hash = false)
    (hparents : M.data.body.parents = roots) :
    RootsInv (msgs ++ [M]) [M.computed_hash] := by
  obtain ⟨hclo, hsub, hiff⟩ := hinv
  have hnotin : ∀ m2 ∈ msgs, m2.computed_hash ≠ M.computed_hash := by
    intro m2 hm2 hcon
    have hc : containsMessage msgs M.computed_hash = true :=
      (containsMessage_iff _ _).mpr ⟨m2, hm2, hcon⟩
    rw [hfresh] at hc
    cases hc
  refine ⟨?_, ?_, ?_⟩
  · intro m hm p hp
    rcases List.mem_append.mp hm with hmold | hmnew
    · rcases hclo m hmold p hp with ⟨m2, hm2, hch⟩
      exact ⟨m2, List.mem_append_left _ hm2, hch⟩
    · rcases List.mem_singleton.mp hmnew with rfl
      rw [hparents] at hp
      rcases hsub p hp with ⟨m2, hm2, hch⟩
      exact ⟨m2, List.mem_append_left _ hm2, hch⟩
  · intro h hh
    rcases List.mem_singleton.mp hh with rfl
    exact ⟨M, List.mem_append_right _ (List.mem_singleton_self M), rfl⟩
  · intro h
    by_cases hhM : h = M.computed_hash
    · subst hhM
      simp only [List.mem_singleton, true_iff]
      constructor
      · exact ⟨M, List.mem_append_right _ (List.mem_singleton_self M), rfl⟩
      · intro m hm hcon
        rcases List.mem_append.mp hm with hmold | hmnew
        · rcases hclo m hmold _ hcon with ⟨m2, hm2, hch⟩
          exact hnotin m2 hm2 hch
        · rcases List.mem_singleton.mp hmnew with rfl
          rw [hparents] at hcon
          rcases hsub _ hcon with ⟨m2, hm2, hch⟩
          exact hnotin m2 hm2 hch
    · constructor
      · intro hcon
        exact absurd (List.mem_singleton.mp hcon) hhM
      · rintro ⟨hex, hall⟩
        exfalso
        have hexold : ∃ m ∈ msgs, m.computed_hash = h := by
          rcases hex with ⟨m, hm, hch⟩
          rcases List.mem_append.mp hm with hmold | hmnew
          · exact ⟨m, hmold, hch⟩
          · rcases List.mem_singleton.mp hmnew with rfl
            exact absurd hch.symm hhM
        have hallold : ∀ m ∈ msgs, h ∉ m.data.body.parents :=
          fun m hm => hall m (List.mem_append_left _ hm)
        have hroot : h ∈ roots := (hiff h).mpr ⟨hexold, hallold⟩
        have hpar : h ∈ M.data.body.parents := by
          rw [hparents]
          exact hroot
        exact hall M (List.mem_append_right _ (List.mem_singleton_self M)) hpar

/-- C7: the roots invariant (roots is a subset of messages, and a node is in
roots iff no node in messages lists it as a parent) holds of the fresh DAG
and is preserved by add_existing_message on honestly hashed data (on every
path, including the error path which keeps the state unchanged) and by
create_root_message when the synthesized body hashes fresh. -/
theorem roots_invariant {P : Type} (hf : MessageDataBody P → Nat)
    (ef : Nat → Nat → List Nat → Nat) :
    (∀ o e, DagWF (DAG.new P o e)) ∧
    (∀ (s : DAGState P) (d : SignedMessageData P), DagWF s → d.hash = hf d.body →
      DagWF (addExistingMessage hf ef s d).2) ∧
    (∀ (s : DAGState P) (p : P) (e : List Nat), DagWF s →
      containsMessage s.messages (hf (rootBody s p e)) = false →
      DagWF (createRootMessage hf ef s p e).2) := by
  refine ⟨?_, ?_, ?_⟩
  · intro o e
    refine ⟨?_, ?_, ?_⟩
    · intro m hm
      simp [DAG.new] at hm
    · intro h hh
      simp [DAG.new] at hh
    · intro h
      simp [DAG.new]
  · intro s d hwf hhash
    by_cases h1 : containsMessage s.messages d.hash = true
    · have heq : addExistingMessage hf ef s d = (AddOutcome.ok, s) := by
        unfold addExistingMessage
        rw [if_pos h1]
      rw [heq]
      exact hwf
    · rw [Bool.not_eq_true] at h1
      cases h2 : resolveParents s.messages d.body.parents with
      | none =>
        have heq : addExistingMessage hf ef s d = (AddOutcome.unknownParent, s) := by
          unfold addExistingMessage
          rw [if_neg (by rw [h1]; simp), h2]
        rw [heq]
        exact hwf
      | some ps =>
        rw [add_success_state hf ef s d ps h1 h2]
        have hfreshch : containsMessage s.messages
            (Message.init hf ef s.starting_epoch d ps).computed_hash = false := by
          show containsMessage s.messages (hf d.body) = false
          rw [← hhash]
          exact h1
        obtain ⟨hmap, hmems⟩ := resolveParents_some h2
        show RootsInv
          (insertMessage (verifyMessage s (Message.init hf ef s.starting_epoch d ps)).messages
            (Message.init hf ef s.starting_epoch d ps))
          (rootsInsert
            (ps.foldl (fun r (p : Message P) => rootsRemove r p.computed_hash)
              (verifyMessage s (Message.init hf ef s.starting_epoch d ps)).roots)
            (Message.init hf ef s.starting_epoch d ps).computed_hash)
        rw [(verify_components s (Message.init hf ef s.starting_epoch d ps)).2.2.1,
          (verify_components s (Message.init hf ef s.starting_epoch d ps)).2.2.2.1,
          insertMessage_fresh s.messages _ hfreshch]
        exact rootsInv_insert s.messages s.roots (Message.init hf ef s.starting_epoch d ps)
          ps hwf hfreshch hmap hmems
  · intro s p e hwf hfresh
    have hfreshch : containsMessage s.messages
        ((Message.init hf ef s.starting_epoch
          { owner_sig := 0, hash := 0, body := rootBody s p e }
          []).assume_computed_hash_epoch).computed_hash = false := hfresh
    show RootsInv
      (insertMessage s.messages
        ((Message.init hf ef s.starting_epoch
          { owner_sig := 0, hash := 0, body := rootBody s p e }
          []).assume_computed_hash_epoch))
      [((Message.init hf ef s.starting_epoch
          { owner_sig := 0, hash := 0, body := rootBody s p e }
          []).assume_computed_hash_epoch).computed_hash]
    rw [insertMessage_fresh s.messages _ hfreshch]
    exact rootsInv_create s.messages s.roots _ hwf hfreshch rfl

/-- C7 witness: the invariant theorem walked through a concrete history: the
fresh DAG, one ingested message, and one synthesized root message. -/
theorem roots_invariant_witness :
    DagWF (DAG.new Unit 0 0) ∧
    DagWF (addExistingMessage hashW efW (DAG.new Unit 0 0) dW6a).2 ∧
    DagWF (createRootMessage hashW efW
      (addExistingMessage hashW efW (DAG.new Unit 0 0) dW6a).2 () []).2 :=
  have h0 : DagWF (DAG.new Unit 0 0) := (roots_invariant hashW efW).1 0 0
  have h1 : DagWF (addExistingMessage hashW efW (DAG.new Unit 0 0) dW6a).2 :=
    (roots_invariant hashW efW).2.1 (DAG.new Unit 0 0) dW6a h0 (by decide)
  ⟨h0, h1, (roots_invariant hashW efW).2.2
    (addExistingMessage hashW efW (DAG.new Unit 0 0) dW6a).2 () [] h1 (by decide)⟩

/-- Behaviour of the find_fork loop when every queued node's hash is already
in the visited set — which is always the case, because the seeding marks all
parents visited and the loop never enqueues any new node (it pushes back the
popped node itself, and only when that node was unvisited): the loop merely
scans the queue for a uid-authored node carrying the recorded head hash. -/
theorem findForkLoop_all_visited {P : Type} (uid lastHash : Nat) (visited : List Nat)
    (queue : List (Message P))
    (hq : ∀ m ∈ queue, m.computed_hash ∈ visited) :
    findForkLoop uid lastHash visited queue =
      if ∃ m ∈ queue, m.data.body.owner_uid = uid ∧ m.computed_hash = lastHash
      then none else some lastHash := by
  induction queue with
  | nil => simp [findForkLoop]
  | cons cur rest ih =>
    have hcur := hq cur (List.mem_cons_self cur rest)
    have hrest : ∀ m ∈ rest, m.computed_hash ∈ visited :=
      fun m hm => hq m (List.mem_cons_of_mem cur hm)
    unfold findForkLoop
    by_cases huid : cur.data.body.owner_uid = uid
    · by_cases hlast : cur.computed_hash = lastHash
      · rw [if_pos huid, if_pos hlast,
          if_pos ⟨cur, List.mem_cons_self cur rest, huid, hlast⟩]
      · rw [if_pos huid, if_neg hlast, ih hrest]
        by_cases hex : ∃ m ∈ rest, m.data.body.owner_uid = uid ∧ m.computed_hash = lastHash
        · rcases hex with ⟨m, hm, hmu, hml⟩
          rw [if_pos ⟨m, hm, hmu, hml⟩,
            if_pos ⟨m, List.mem_cons_of_mem cur hm, hmu, hml⟩]
        · rw [if_neg hex, if_neg ?_]
          rintro ⟨m, hm, hmu, hml⟩
          rcases List.mem_cons.mp hm with rfl | hmr
          · exact hlast hml
          · exact hex ⟨m, hmr, hmu, hml⟩
    · rw [if_neg huid, if_pos hcur, ih hrest]
      by_cases hex : ∃ m ∈ rest, m.data.body.owner_uid = uid ∧ m.computed_hash = lastHash
      · rcases hex with ⟨m, hm, hmu, hml⟩
        rw [if_pos ⟨m, hm, hmu, hml⟩,
          if_pos ⟨m, List.mem_cons_of_mem cur hm, hmu, hml⟩]
      · rw [if_neg hex, if_neg ?_]
        rintro ⟨m, hm, hmu, hml⟩
        rcases List.mem_cons.mp hm with rfl | hmr
        · exact huid hmu
        · exact hex ⟨m, hmr, hmu, hml⟩

/-- What DAG::find_fork actually computes: since the seeded parents are all
pre-visited and nothing else ever enters the queue, the search returns no
fork exactly when some DIRECT parent of the message is authored by the same
participant and carries the recorded head hash; no deeper ancestor is ever
examined. -/
theorem findFork_eq {P : Type} (s : DAGState P) (m : Message P) :
    findFork s m =
      match headLookup s.participant_head m.data.body.owner_uid with
      | none => none
      | some lastHash =>
        if ∃ p ∈ m.data.body.parents.filterMap (lookupMessage s.messages),
            p.data.body.owner_uid = m.data.body.owner_uid ∧ p.computed_hash = lastHash
        then none else some lastHash := by
  unfold findFork
  cases hh : headLookup s.participant_head m.data.body.owner_uid with
  | none => rfl
  | some lastHash =>
    exact findForkLoop_all_visited _ _ _ _
      (fun q hq => List.mem_map.mpr ⟨q, hq, rfl⟩)

/-- First message of the C1 scenario: owner 1, no parents; hashW hash 1. -/
def dC1a : SignedMessageData Unit :=
  { owner_sig := 0, hash := 1
  , body := { owner_uid := 1, parents := [], epoch := 0, payload := (), endorsements := [] } }

/-- Second message of the C1 scenario: owner 2, parent dC1a; hashW hash 112. -/
def dC1b : SignedMessageData Unit :=
  { owner_sig := 0, hash := 112
  , body := { owner_uid := 2, parents := [1], epoch := 0, payload := (), endorsements := [] } }

/-- Third message of the C1 scenario: owner 1 again, parent dC1b; hashW hash
11211.  Its ancestor path 11211 -> 112 -> 1 reaches participant 1's recorded
head (hash 1) through the non-1-authored message dC1b. -/
def dC1m : SignedMessageData Unit :=
  { owner_sig := 0, hash := 11211
  , body := { owner_uid := 1, parents := [112], epoch := 0, payload := (), endorsements := [] } }

/-- The DAG after ingesting dC1a and dC1b: participant 1's head is hash 1. -/
def sC1 : DAGState Unit :=
  (addExistingMessage hashW efW
    (addExistingMessage hashW efW (DAG.new Unit 0 0) dC1a).2 dC1b).2

/-- The wrapped third message exactly as add_existing_message builds it. -/
def mC1 : Message Unit :=
  Message.init hashW efW sC1.starting_epoch dC1m
    ((resolveParents sC1.messages dC1m.body.parents).getD [])

/-- C1 (code bug evidence): the message mC1 reaches participant 1's recorded
head (hash 1) by an ancestor path through its parent 112, yet find_fork
reports a fork (Some 1), and ingesting it records a ForkAttempt — because
the loop enqueues the popped node itself instead of that node's parents
(dag/mod.rs line 86), so the BFS never descends past the direct parents. -/
theorem find_fork_ignores_ancestor_path :
    findFork sC1 mC1 = some 1 ∧
    mC1.data.body.parents.any (fun p => ancestorReaches sC1 3 p 1) = true ∧
    ViolationType.ForkAttempt 1 11211 ∈ (addExistingMessage hashW efW sC1 dC1m).2.misbehaviour := by
  have hff : findFork sC1 mC1 = some 1 := by
    rw [findFork_eq]
    decide
  refine ⟨hff, by decide, ?_⟩
  rw [add_success_state hashW efW sC1 dC1m
    ((resolveParents sC1.messages dC1m.body.parents).getD []) (by decide) (by decide)]
  show ViolationType.ForkAttempt 1 11211 ∈ (verifyMessage sC1 mC1).misbehaviour
  simp only [verifyMessage]
  rw [if_neg (by decide)]
  rw [hff]
  decide

/-- C10 witness: the consistency theorem applied at two concrete views. -/
theorem nibble_cmp_eq_iff_witness :
    ((NibbleSlice.cmpNibbles (NibbleSlice.new [1, 35]) (NibbleSlice.new_offset [1, 35] 0)
        = some Ordering.eq ↔
      NibbleSlice.beqN (NibbleSlice.new [1, 35]) (NibbleSlice.new_offset [1, 35] 0) = true) ∧
    (NibbleSlice.cmpNibbles (NibbleSlice.new [1, 35])
        (NibbleSlice.new_offset [1, 35] 0)).isSome = true) :=
  nibble_cmp_eq_iff (NibbleSlice.new [1, 35]) (NibbleSlice.new_offset [1, 35] 0)
